import Mathlib

/-!
Verification of the OptRRT optimizing rapidly-exploring random tree planner
(`ompl/geometric/planners/rrt/OptRRT.h`).

The header provides the `Motion` record (`state`, `parent`, `cost`), the
distance function over motions, the constructor's parameter defaults, the
parameter accessors, and `setNearestNeighbors`.  The bodies of `solve`,
`setup` and `freeMemory` are only declared there; where a claim depends on
them, the corresponding definition below is modelled from the spec and says
so in its doc comment.

Real-valued quantities of the program (costs, distances, parameters) are
modelled as rationals, except the shrinking-radius formula, which uses the
real logarithm and real powers and is therefore modelled over `ℝ`.
-/

namespace OptRRTVerify

/-! ### Configured parameters

From the `OptRRT` constructor (`goalBias_ = 0.05; maxDistance_ = 0.0;
ballRadiusMax_ = 0.0; ballRadiusConst_ = 1.0;`) and the public accessors of
the header. -/

/-- The planner's configured parameters: the fields `goalBias_`,
`maxDistance_`, `ballRadiusMax_` and `ballRadiusConst_` of class `OptRRT`. -/
structure OptRRT where
  goalBias : ℚ
  maxDistance : ℚ
  ballRadiusMax : ℚ
  ballRadiusConst : ℚ
deriving DecidableEq

/-- The `OptRRT` constructor body: `goalBias_ = 0.05; maxDistance_ = 0.0;
ballRadiusMax_ = 0.0; ballRadiusConst_ = 1.0;`. -/
def OptRRT.init : OptRRT := ⟨0.05, 0, 0, 1⟩

/-- `OptRRT::setGoalBias`. -/
def OptRRT.setGoalBias (p : OptRRT) (goalBias : ℚ) : OptRRT :=
  ⟨goalBias, p.maxDistance, p.ballRadiusMax, p.ballRadiusConst⟩

/-- `OptRRT::getGoalBias`. -/
def OptRRT.getGoalBias (p : OptRRT) : ℚ := p.goalBias

/-- `OptRRT::setRange`. -/
def OptRRT.setRange (p : OptRRT) (distance : ℚ) : OptRRT :=
  ⟨p.goalBias, distance, p.ballRadiusMax, p.ballRadiusConst⟩

/-- `OptRRT::getRange`. -/
def OptRRT.getRange (p : OptRRT) : ℚ := p.maxDistance

/-- `OptRRT::setBallRadiusConstant`. -/
def OptRRT.setBallRadiusConstant (p : OptRRT) (ballRadiusConstant : ℚ) : OptRRT :=
  ⟨p.goalBias, p.maxDistance, p.ballRadiusMax, ballRadiusConstant⟩

/-- `OptRRT::getBallRadiusConstant`. -/
def OptRRT.getBallRadiusConstant (p : OptRRT) : ℚ := p.ballRadiusConst

/-- `OptRRT::setMaxBallRadius`. -/
def OptRRT.setMaxBallRadius (p : OptRRT) (maxBallRadius : ℚ) : OptRRT :=
  ⟨p.goalBias, p.maxDistance, maxBallRadius, p.ballRadiusConst⟩

/-- `OptRRT::getMaxBallRadius`. -/
def OptRRT.getMaxBallRadius (p : OptRRT) : ℚ := p.ballRadiusMax

/-- C8: immediately after construction and before any setter is called,
`getGoalBias()` returns 0.05, `getBallRadiusConstant()` returns 1.0 and
`getMaxBallRadius()` returns 0. -/
theorem OptRRT.init_parameter_defaults :
    OptRRT.init.getGoalBias = 0.05 ∧
    OptRRT.init.getBallRadiusConstant = 1 ∧
    OptRRT.init.getMaxBallRadius = 0 :=
  ⟨rfl, rfl, rfl⟩

/-! ### Setup-time configuration validation -/

/-- Modelled from the spec: the body of `OptRRT::setup` is only declared in
the header.  Setup validates the configuration before a run: `maxDistance`
must have been configured to a positive value, otherwise it is derived from
the space's maximum extent when that is positive; with neither available the
configuration error is fatal and the run must not start.  The spec gives no
formula for the derived value; the extent itself is used here, and any
positive choice would do. -/
def setupCheck (maxDistance extent : ℚ) : Except String ℚ :=
  if 0 < maxDistance then Except.ok maxDistance
  else if 0 < extent then Except.ok extent
  else Except.error "maxDistance not set"

/-- C7: the constructed default `maxDistance` (0) is not a valid value; any
successful setup yields a positive `maxDistance`; and when `maxDistance` is
unset (not positive) and cannot be derived from the extent, setup reports a
fatal configuration error, so the run does not start. -/
theorem setup_rejects_unset_maxDistance (md ext : ℚ) :
    ¬ 0 < OptRRT.init.maxDistance ∧
    (∀ v, setupCheck md ext = Except.ok v → 0 < v) ∧
    (md ≤ 0 → ext ≤ 0 → setupCheck md ext = Except.error "maxDistance not set") := by
  refine ⟨by norm_num [OptRRT.init], ?_, ?_⟩
  · intro v hv
    unfold setupCheck at hv
    split_ifs at hv with h1 h2
    · cases hv; exact h1
    · cases hv; exact h2
  · intro h1 h2
    unfold setupCheck
    rw [if_neg (not_lt.mpr h1), if_neg (not_lt.mpr h2)]

/-- Witness for C7 at the constructed defaults: `maxDistance` left at 0 with
no extent to derive from makes setup fail. -/
theorem setup_rejects_unset_maxDistance_witness :
    ¬ 0 < OptRRT.init.maxDistance ∧
    setupCheck 0 0 = Except.error "maxDistance not set" :=
  ⟨(setup_rejects_unset_maxDistance 0 0).1,
   (setup_rejects_unset_maxDistance 0 0).2.2 le_rfl le_rfl⟩

/-! ### Replacing the nearest-neighbor datastructure -/

/-- The planner state visible to `setNearestNeighbors`: the contents of the
nearest-neighbor datastructure `nn_` (the motions registered in it, by
identifier), the Tree Store's motions, and the configured parameters. -/
structure PlannerState where
  nnIndex : List Nat
  treeMotions : List Nat
  params : OptRRT
deriving DecidableEq

/-- `OptRRT::setNearestNeighbors`: `nn_.reset(new NN<Motion*>())` replaces
the nearest-neighbor datastructure with a freshly constructed, empty instance
and touches no other planner state. -/
def setNearestNeighbors (s : PlannerState) : PlannerState :=
  ⟨[], s.treeMotions, s.params⟩

/-- C10: after `setNearestNeighbors` the index is empty, the Tree Store and
parameters are unchanged, previously registered motions are no longer
queryable, and the index mirrors the Tree Store's contents exactly when the
call was made before the first insertion (Tree Store still empty). -/
theorem setNearestNeighbors_resets_index (s : PlannerState) :
    (setNearestNeighbors s).nnIndex = [] ∧
    (setNearestNeighbors s).treeMotions = s.treeMotions ∧
    (setNearestNeighbors s).params = s.params ∧
    (∀ m, m ∈ s.nnIndex → m ∉ (setNearestNeighbors s).nnIndex) ∧
    ((setNearestNeighbors s).nnIndex = (setNearestNeighbors s).treeMotions ↔
      s.treeMotions = []) := by
  refine ⟨rfl, rfl, rfl, ?_, ?_⟩
  · intro m _ hm
    simp [setNearestNeighbors] at hm
  · unfold setNearestNeighbors
    exact eq_comm

/-- Witness for C10: a motion registered in the index is gone after the
datastructure is replaced. -/
theorem setNearestNeighbors_resets_index_witness :
    1 ∈ (⟨[1], [1], OptRRT.init⟩ : PlannerState).nnIndex ∧
    1 ∉ (setNearestNeighbors ⟨[1], [1], OptRRT.init⟩).nnIndex :=
  ⟨by decide, (setNearestNeighbors_resets_index ⟨[1], [1], OptRRT.init⟩).2.2.2.1 1 (by decide)⟩

/-! ### The tree of motions

`Motion` and `distanceFunction` are from the header.  The tree itself is a
list of motions; a motion's `parent` is the index of another motion in the
list, `none` for the root.  Costs and distances are rationals.  The insert
and rewire operations, whose code lives in the undeclared body of
`OptRRT::solve`, are modelled from the spec. -/

/-- `OptRRT::Motion`: a state, a pointer to the parent motion (`none` for the
root), and the accumulated cost from the root. -/
structure Motion (σ : Type) where
  state : σ
  parent : Option Nat
  cost : ℚ
deriving DecidableEq

/-- The Tree Store's contents: motions indexed by position. -/
abbrev Tree (σ : Type) := List (Motion σ)

/-- `OptRRT::distanceFunction`: `si_->distance(a->state, b->state)`, the
configuration space's distance metric evaluated at the two motions' states. -/
def distanceFunction (dist : σ → σ → ℚ) (a b : Motion σ) : ℚ :=
  dist a.state b.state

/-- The distance function supplied by the configuration space: nonnegative,
and positive on distinct configurations. -/
def IsMetric (dist : σ → σ → ℚ) : Prop :=
  (∀ a b, 0 ≤ dist a b) ∧ ∀ a b, a ≠ b → 0 < dist a b

/-- Modelled from the spec: the initial Tree Store holds only the root
motion, with cost 0 and no parent (`root()` of the Tree Store). -/
def initTree (s : σ) : Tree σ := [⟨s, none, 0⟩]

/-- The cost stored at index `i` (0 when out of range). -/
def costOf (t : Tree σ) (i : Nat) : ℚ :=
  (Option.map Motion.cost t[i]?).getD 0

/-- The parent chain from index `i`, computed with explicit fuel: `some l`
when a parentless motion is reached within `fuel` steps, `l` listing the
visited indices from `i` down to that motion. -/
def chain (t : Tree σ) : Nat → Nat → Option (List Nat)
  | 0, _ => none
  | fuel+1, i =>
    t[i]?.bind fun mo =>
      mo.parent.elim (some [i]) fun p => Option.map (fun l => i :: l) (chain t fuel p)

/-- Whether index `q` lies on the parent chain of index `i` (so `i` is in the
subtree rooted at `q`), using `t.length` as fuel. -/
def inSubtree (t : Tree σ) (q i : Nat) : Bool :=
  match chain t t.length i with
  | some l => decide (q ∈ l)
  | none => false

/-- Rewrite every entry of the tree with an index-aware function (`k` is the
index of the first entry). -/
def modifyAll (f : Nat → Motion σ → Motion σ) : Nat → Tree σ → Tree σ
  | _, [] => []
  | k, mo :: ms => f k mo :: modifyAll f (k+1) ms

/-- Modelled from the spec: insertion of a new motion (step 7 of
Extend-and-Insert, inside the body of `OptRRT::solve`): the new motion gets
`state = newState`, `parent = p`, `cost = p.cost + edge_cost(p.state,
newState)` and is appended to the Tree Store.  An out-of-range parent leaves
the tree unchanged. -/
def insertMotion (dist : σ → σ → ℚ) (t : Tree σ) (p : Nat) (s : σ) : Tree σ :=
  match t[p]? with
  | some mp => t ++ [⟨s, some p, mp.cost + dist mp.state s⟩]
  | none => t

/-- Modelled from the spec: one rewiring step (Rewire, inside the body of
`OptRRT::solve`): for a neighbor `q` of the newly inserted motion `m`,
compute the candidate cost `c = m.cost + edge_cost(m.state, q.state)`; when
`c < q.cost` and the segment is feasible, re-parent `q` to `m`, set `q.cost
= c`, and apply the decrease `Δ = oldCost(q) − c` to every descendant of
`q`.  Otherwise the tree is unchanged. -/
def rewireOne (dist : σ → σ → ℚ) (feasible : σ → σ → Bool) (t : Tree σ) (m q : Nat) : Tree σ :=
  match t[m]?, t[q]? with
  | some mm, some mq =>
    if mm.cost + dist mm.state mq.state < mq.cost ∧ feasible mm.state mq.state = true then
      modifyAll (fun i mo =>
        if i = q then
          ⟨mo.state, some m, mo.cost - (mq.cost - (mm.cost + dist mm.state mq.state))⟩
        else if inSubtree t q i then
          ⟨mo.state, mo.parent, mo.cost - (mq.cost - (mm.cost + dist mm.state mq.state))⟩
        else mo) 0 t
    else t
  | _, _ => t

/-- The reachable states of the Tree Store: the initial single-root tree,
closed under insertion (of a state not already stored, per the validate step)
and rewiring. -/
inductive Reachable (dist : σ → σ → ℚ) (feasible : σ → σ → Bool) : Tree σ → Prop where
  | init (s : σ) : Reachable dist feasible (initTree s)
  | insert {t : Tree σ} (p : Nat) (s : σ) : Reachable dist feasible t →
      s ∉ t.map Motion.state → Reachable dist feasible (insertMotion dist t p s)
  | rewire {t : Tree σ} (m q : Nat) : Reachable dist feasible t →
      Reachable dist feasible (rewireOne dist feasible t m q)

/-- Cost consistency: every non-root motion's cost is its parent's cost plus
the edge cost `distanceFunction` between parent and child. -/
def costConsistent (dist : σ → σ → ℚ) (t : Tree σ) : Prop :=
  ∀ (i : Nat) (mo : Motion σ) (p : Nat), t[i]? = some mo → mo.parent = some p →
    ∃ mp, t[p]? = some mp ∧ mo.cost = mp.cost + distanceFunction dist mp mo

/-- Well-formedness of the Tree Store: nonempty, pairwise-distinct states,
the unique parentless motion is at index 0 with cost 0, costs are
nonnegative, and every parent edge is in range, cost-consistent, and strictly
cost-increasing. -/
structure WF (dist : σ → σ → ℚ) (t : Tree σ) : Prop where
  nonempty : t ≠ []
  states_nodup : (t.map Motion.state).Nodup
  root_iff : ∀ (i : Nat) (mo : Motion σ), t[i]? = some mo → (mo.parent = none ↔ i = 0)
  root_cost : ∀ (mo : Motion σ), t[0]? = some mo → mo.cost = 0
  cost_nonneg : ∀ (i : Nat) (mo : Motion σ), t[i]? = some mo → 0 ≤ mo.cost
  edges : ∀ (i : Nat) (mo : Motion σ) (p : Nat), t[i]? = some mo → mo.parent = some p →
    ∃ mp, t[p]? = some mp ∧ mp.cost + dist mp.state mo.state = mo.cost ∧ mp.cost < mo.cost

/-- The number of motions whose stored cost is below that of index `i`; the
ranking that makes parent chains terminate. -/
def rank (t : Tree σ) (i : Nat) : Nat :=
  ((Finset.range t.length).filter (fun j => costOf t j < costOf t i)).card

/-! ### Helper lemmas about the tree model -/

lemma lt_length_of_getElem? {α : Type} {t : List α} {i : Nat} {x : α}
    (h : t[i]? = some x) : i < t.length := by
  by_contra hlt
  rw [List.getElem?_eq_none (Nat.le_of_not_lt hlt)] at h
  exact Option.noConfusion h

lemma getElem?_concat {α : Type} (t : List α) (x : α) (i : Nat) :
    (t ++ [x])[i]? = if i < t.length then t[i]? else if i = t.length then some x else none := by
  induction t generalizing i with
  | nil =>
    cases i with
    | zero => simp
    | succ j => simp
  | cons hd tl ih =>
    cases i with
    | zero => simp
    | succ j =>
      simp only [List.cons_append, List.getElem?_cons_succ, ih, List.length_cons]
      by_cases h : j < tl.length
      · rw [if_pos h, if_pos (Nat.succ_lt_succ h)]
      · rw [if_neg h, if_neg (fun hc => h (Nat.lt_of_succ_lt_succ hc))]
        by_cases h2 : j = tl.length
        · rw [if_pos h2, if_pos (by omega)]
        · rw [if_neg h2, if_neg (by omega)]

lemma modifyAll_length (f : Nat → Motion σ → Motion σ) (k : Nat) (t : Tree σ) :
    (modifyAll f k t).length = t.length := by
  induction t generalizing k with
  | nil => rfl
  | cons hd tl ih => simp [modifyAll, ih]

lemma getElem?_modifyAll (f : Nat → Motion σ → Motion σ) (k i : Nat) (t : Tree σ) :
    (modifyAll f k t)[i]? = Option.map (f (k + i)) t[i]? := by
  induction t generalizing k i with
  | nil => simp [modifyAll]
  | cons hd tl ih =>
    cases i with
    | zero => simp [modifyAll]
    | succ j =>
      have : k + (j + 1) = (k + 1) + j := by omega
      simp [modifyAll, ih (k+1) j, this]

lemma modifyAll_map_state (f : Nat → Motion σ → Motion σ)
    (hf : ∀ i mo, (f i mo).state = mo.state) (k : Nat) (t : Tree σ) :
    (modifyAll f k t).map Motion.state = t.map Motion.state := by
  induction t generalizing k with
  | nil => rfl
  | cons hd tl ih => simp [modifyAll, hf, ih]

lemma costOf_eq {t : Tree σ} {i : Nat} {mo : Motion σ} (h : t[i]? = some mo) :
    costOf t i = mo.cost := by
  simp [costOf, h]

lemma chain_zero (t : Tree σ) (i : Nat) : chain t 0 i = none := rfl

lemma chain_succ_oob {t : Tree σ} {i : Nat} (hi : t[i]? = none) (fuel : Nat) :
    chain t (fuel+1) i = none := by
  rw [chain, hi]; rfl

lemma chain_succ_root {t : Tree σ} {i : Nat} {mo : Motion σ}
    (hi : t[i]? = some mo) (hp : mo.parent = none) (fuel : Nat) :
    chain t (fuel+1) i = some [i] := by
  rw [chain, hi, Option.some_bind, hp]
  rfl

lemma chain_succ_step {t : Tree σ} {i p : Nat} {mo : Motion σ}
    (hi : t[i]? = some mo) (hp : mo.parent = some p) (fuel : Nat) :
    chain t (fuel+1) i = Option.map (fun l => i :: l) (chain t fuel p) := by
  rw [chain, hi, Option.some_bind, hp]
  rfl

lemma chain_mono_succ {t : Tree σ} {fuel i : Nat} {l : List Nat}
    (h : chain t fuel i = some l) : chain t (fuel+1) i = some l := by
  induction fuel generalizing i l with
  | zero => simp [chain] at h
  | succ n ih =>
    cases hi : t[i]? with
    | none => rw [chain_succ_oob hi] at h; exact absurd h (by simp)
    | some mo =>
      cases hp : mo.parent with
      | none => rw [chain_succ_root hi hp] at h; rw [chain_succ_root hi hp]; exact h
      | some p =>
        rw [chain_succ_step hi hp] at h
        obtain ⟨l', hl', rfl⟩ := Option.map_eq_some'.mp h
        rw [chain_succ_step hi hp, ih hl']
        rfl

lemma chain_mono {t : Tree σ} {fuel fuel' i : Nat} {l : List Nat}
    (hle : fuel ≤ fuel') (h : chain t fuel i = some l) : chain t fuel' i = some l := by
  induction hle with
  | refl => exact h
  | step _ ih => exact chain_mono_succ ih

lemma rank_lt_length {t : Tree σ} {i : Nat} (hi : i < t.length) : rank t i < t.length := by
  have h1 : (Finset.range t.length).filter (fun j => costOf t j < costOf t i) ⊂
      Finset.range t.length :=
    (Finset.ssubset_iff_of_subset (Finset.filter_subset _ _)).mpr
      ⟨i, Finset.mem_range.mpr hi, by simp⟩
  simpa [rank, Finset.card_range] using Finset.card_lt_card h1

lemma rank_lt_of_edge {dist : σ → σ → ℚ} {t : Tree σ} (hwf : WF dist t)
    {i p : Nat} {mo : Motion σ} (hi : t[i]? = some mo) (hp : mo.parent = some p) :
    rank t p < rank t i := by
  obtain ⟨mp, hmp, _, hlt⟩ := hwf.edges i mo p hi hp
  have hcp : costOf t p = mp.cost := costOf_eq hmp
  have hci : costOf t i = mo.cost := costOf_eq hi
  have hcc : costOf t p < costOf t i := by rw [hcp, hci]; exact hlt
  apply Finset.card_lt_card
  refine (Finset.ssubset_iff_of_subset ?_).mpr ?_
  · intro j hj
    rw [Finset.mem_filter] at hj ⊢
    exact ⟨hj.1, lt_trans hj.2 hcc⟩
  · refine ⟨p, ?_, ?_⟩
    · rw [Finset.mem_filter]
      exact ⟨Finset.mem_range.mpr (lt_length_of_getElem? hmp), hcc⟩
    · simp

lemma chain_isSome {dist : σ → σ → ℚ} {t : Tree σ} (hwf : WF dist t) :
    ∀ (fuel i : Nat) (mo : Motion σ), t[i]? = some mo → rank t i < fuel →
      ∃ l, chain t fuel i = some l := by
  intro fuel
  induction fuel with
  | zero => intro i mo _ h; omega
  | succ n ih =>
    intro i mo hi hr
    cases hp : mo.parent with
    | none => exact ⟨[i], chain_succ_root hi hp n⟩
    | some p =>
      obtain ⟨mp, hmp, _, _⟩ := hwf.edges i mo p hi hp
      have h1 : rank t p < n := by
        have := rank_lt_of_edge hwf hi hp; omega
      obtain ⟨l, hl⟩ := ih p mp hmp h1
      exact ⟨i :: l, by rw [chain_succ_step hi hp, hl]; rfl⟩

lemma chain_props {dist : σ → σ → ℚ} {t : Tree σ} (hwf : WF dist t) :
    ∀ (fuel i : Nat) (l : List Nat), chain t fuel i = some l →
      l.head? = some i ∧ l.getLast? = some 0 ∧ l.Nodup ∧ l.length ≤ fuel ∧
      ∀ j ∈ l, j < t.length ∧ costOf t j ≤ costOf t i ∧
        (j ≠ i → costOf t j < costOf t i) := by
  intro fuel
  induction fuel with
  | zero => intro i l h; simp [chain] at h
  | succ n ih =>
    intro i l h
    cases hi : t[i]? with
    | none => rw [chain_succ_oob hi] at h; exact absurd h (by simp)
    | some mo =>
      cases hp : mo.parent with
      | none =>
        rw [chain_succ_root hi hp] at h
        obtain rfl : [i] = l := by exact Option.some_injective _ h
        have hroot : i = 0 := (hwf.root_iff i mo hi).mp hp
        refine ⟨rfl, by rw [hroot]; rfl, by simp, by simp, ?_⟩
        intro j hj
        obtain rfl : j = i := by simpa using hj
        exact ⟨lt_length_of_getElem? hi, le_rfl, fun hc => absurd rfl hc⟩
      | some p =>
        rw [chain_succ_step hi hp] at h
        obtain ⟨l', hl', rfl⟩ := Option.map_eq_some'.mp h
        obtain ⟨hhead, hlast, hnd, hlen, hmem⟩ := ih p l' hl'
        obtain ⟨mp, hmp, _, hlt⟩ := hwf.edges i mo p hi hp
        have hcc : costOf t p < costOf t i := by
          rw [costOf_eq hmp, costOf_eq hi]; exact hlt
        have hstrict : ∀ j ∈ l', costOf t j < costOf t i :=
          fun j hj => lt_of_le_of_lt (hmem j hj).2.1 hcc
        refine ⟨rfl, ?_, ?_, by simpa using Nat.succ_le_succ hlen, ?_⟩
        · cases l' with
          | nil => exact absurd hhead (by simp)
          | cons a tl => rw [List.getLast?_cons_cons]; exact hlast
        · rw [List.nodup_cons]
          refine ⟨fun hc => ?_, hnd⟩
          exact absurd (hstrict i hc) (lt_irrefl _)
        · intro j hj
          rcases List.mem_cons.mp hj with rfl | hj'
          · exact ⟨lt_length_of_getElem? hi, le_rfl, fun hc => absurd rfl hc⟩
          · exact ⟨(hmem j hj').1, le_of_lt (hstrict j hj'),
              fun _ => hstrict j hj'⟩

lemma wf_initTree (dist : σ → σ → ℚ) (s : σ) : WF dist (initTree s) := by
  refine ⟨by simp [initTree], by simp [initTree], ?_, ?_, ?_, ?_⟩
  · intro i mo h
    cases i with
    | zero =>
      obtain rfl : (⟨s, none, 0⟩ : Motion σ) = mo := by simpa [initTree] using h
      simp
    | succ j => simp [initTree] at h
  · intro mo h
    obtain rfl : (⟨s, none, 0⟩ : Motion σ) = mo := by simpa [initTree] using h
    rfl
  · intro i mo h
    cases i with
    | zero =>
      obtain rfl : (⟨s, none, 0⟩ : Motion σ) = mo := by simpa [initTree] using h
      exact le_rfl
    | succ j => simp [initTree] at h
  · intro i mo p h hp
    cases i with
    | zero =>
      obtain rfl : (⟨s, none, 0⟩ : Motion σ) = mo := by simpa [initTree] using h
      exact absurd hp (by simp)
    | succ j => simp [initTree] at h

lemma insertMotion_oob {t : Tree σ} {p : Nat} (dist : σ → σ → ℚ) (s : σ)
    (h : t[p]? = none) : insertMotion dist t p s = t := by
  unfold insertMotion; rw [h]

lemma insertMotion_eq {t : Tree σ} {p : Nat} {mp : Motion σ} (dist : σ → σ → ℚ) (s : σ)
    (h : t[p]? = some mp) :
    insertMotion dist t p s = t ++ [⟨s, some p, mp.cost + dist mp.state s⟩] := by
  unfold insertMotion; rw [h]

lemma rewireOne_oob_m {t : Tree σ} {m q : Nat} (dist : σ → σ → ℚ) (feasible : σ → σ → Bool)
    (h : t[m]? = none) : rewireOne dist feasible t m q = t := by
  unfold rewireOne; rw [h]

lemma rewireOne_oob_q {t : Tree σ} {m q : Nat} (dist : σ → σ → ℚ) (feasible : σ → σ → Bool)
    (h : t[q]? = none) : rewireOne dist feasible t m q = t := by
  unfold rewireOne
  cases hm : t[m]? with
  | none => rfl
  | some mm => rw [h]

lemma rewireOne_eq {t : Tree σ} {m q : Nat} {mm mq : Motion σ}
    (dist : σ → σ → ℚ) (feasible : σ → σ → Bool)
    (hm : t[m]? = some mm) (hq : t[q]? = some mq) :
    rewireOne dist feasible t m q =
      if mm.cost + dist mm.state mq.state < mq.cost ∧ feasible mm.state mq.state = true then
        modifyAll (fun i mo =>
          if i = q then
            ⟨mo.state, some m, mo.cost - (mq.cost - (mm.cost + dist mm.state mq.state))⟩
          else if inSubtree t q i then
            ⟨mo.state, mo.parent, mo.cost - (mq.cost - (mm.cost + dist mm.state mq.state))⟩
          else mo) 0 t
      else t := by
  unfold rewireOne; rw [hm, hq]

lemma wf_insertMotion {dist : σ → σ → ℚ} {t : Tree σ} (hwf : WF dist t)
    (hmet : IsMetric dist) {s : σ} (hs : s ∉ t.map Motion.state) (p : Nat) :
    WF dist (insertMotion dist t p s) := by
  cases hp : t[p]? with
  | none => rw [insertMotion_oob dist s hp]; exact hwf
  | some mp =>
    rw [insertMotion_eq dist s hp]
    have hplen : p < t.length := lt_length_of_getElem? hp
    have hlen0 : 0 < t.length := Nat.lt_of_le_of_lt (Nat.zero_le p) hplen
    refine ⟨by simp, ?_, ?_, ?_, ?_, ?_⟩
    · rw [List.map_append, List.map_cons, List.map_nil, List.nodup_append]
      refine ⟨hwf.states_nodup, List.nodup_singleton s, ?_⟩
      intro x hx hx1
      rw [List.mem_singleton] at hx1
      subst hx1
      exact hs hx
    · intro i mo h
      rw [getElem?_concat] at h
      split_ifs at h with h1 h2
      · exact hwf.root_iff i mo h
      · obtain rfl := Option.some_injective _ h
        constructor
        · intro hc; exact absurd hc (by simp)
        · intro hc; exfalso; omega
    · intro mo h
      rw [getElem?_concat, if_pos hlen0] at h
      exact hwf.root_cost mo h
    · intro i mo h
      rw [getElem?_concat] at h
      split_ifs at h with h1 h2
      · exact hwf.cost_nonneg i mo h
      · obtain rfl := Option.some_injective _ h
        have h3 := hwf.cost_nonneg p mp hp
        have h4 := hmet.1 mp.state s
        dsimp only
        linarith
    · intro i mo pp h hpp
      rw [getElem?_concat] at h
      split_ifs at h with h1 h2
      · obtain ⟨mq, hmq, heq, hlt⟩ := hwf.edges i mo pp h hpp
        refine ⟨mq, ?_, heq, hlt⟩
        rw [getElem?_concat, if_pos (lt_length_of_getElem? hmq)]
        exact hmq
      · obtain rfl := Option.some_injective _ h
        obtain rfl : p = pp := by
          have : some p = some pp := hpp
          exact Option.some_injective _ this
        have hne : mp.state ≠ s := by
          intro hc
          exact hs (hc ▸ List.mem_map_of_mem Motion.state (List.getElem?_mem hp))
        have hdpos := hmet.2 mp.state s hne
        refine ⟨mp, ?_, rfl, by dsimp only; linarith⟩
        rw [getElem?_concat, if_pos hplen]
        exact hp

lemma inSubtree_eq_true_iff {t : Tree σ} {q i : Nat} {l : List Nat}
    (hl : chain t t.length i = some l) : inSubtree t q i = true ↔ q ∈ l := by
  unfold inSubtree; rw [hl]; simp

lemma inSubtree_false_of_none {t : Tree σ} {q i : Nat}
    (hl : chain t t.length i = none) : inSubtree t q i = false := by
  unfold inSubtree; rw [hl]

lemma inSubtree_self {dist : σ → σ → ℚ} {t : Tree σ} (hwf : WF dist t)
    {q : Nat} {mq : Motion σ} (hq : t[q]? = some mq) : inSubtree t q q = true := by
  obtain ⟨l, hl⟩ :=
    chain_isSome hwf t.length q mq hq (rank_lt_length (lt_length_of_getElem? hq))
  have hhead := (chain_props hwf t.length q l hl).1
  rw [inSubtree_eq_true_iff hl]
  cases l with
  | nil => exact absurd hhead (by simp)
  | cons a tl =>
    obtain rfl : a = q := by simpa using hhead
    exact List.mem_cons_self a tl

lemma not_inSubtree_of_cost_lt {dist : σ → σ → ℚ} {t : Tree σ} (hwf : WF dist t)
    {q j : Nat} (hlt : costOf t j < costOf t q) : inSubtree t q j = false := by
  cases hl : chain t t.length j with
  | none => exact inSubtree_false_of_none hl
  | some l =>
    cases hb : inSubtree t q j with
    | false => rfl
    | true =>
      exfalso
      have hqm : q ∈ l := (inSubtree_eq_true_iff hl).mp hb
      have := ((chain_props hwf t.length j l hl).2.2.2.2 q hqm).2.1
      linarith

lemma inSubtree_parent {t : Tree σ}
    {q i p : Nat} {mi : Motion σ} (hi : t[i]? = some mi) (hp : mi.parent = some p)
    (hne : i ≠ q) (hsub : inSubtree t q i = true) : inSubtree t q p = true := by
  cases hl : chain t t.length i with
  | none => rw [inSubtree_false_of_none hl] at hsub; exact absurd hsub (by simp)
  | some l =>
    have hqmem : q ∈ l := (inSubtree_eq_true_iff hl).mp hsub
    obtain ⟨n, hn⟩ : ∃ n, t.length = n + 1 :=
      ⟨t.length - 1, by have := lt_length_of_getElem? hi; omega⟩
    rw [hn, chain_succ_step hi hp n] at hl
    obtain ⟨l', hl', rfl⟩ := Option.map_eq_some'.mp hl
    have hl'' : chain t t.length p = some l' := chain_mono (by omega) hl'
    rcases List.mem_cons.mp hqmem with rfl | hq'
    · exact absurd rfl hne.symm
    · exact (inSubtree_eq_true_iff hl'').mpr hq'

lemma inSubtree_child {dist : σ → σ → ℚ} {t : Tree σ} (hwf : WF dist t)
    {q i p : Nat} {mi : Motion σ} (hi : t[i]? = some mi) (hp : mi.parent = some p)
    (hsub : inSubtree t q p = true) : inSubtree t q i = true := by
  obtain ⟨mp, hmp, _, _⟩ := hwf.edges i mi p hi hp
  have hrp : rank t p < rank t i := rank_lt_of_edge hwf hi hp
  have hri : rank t i < t.length := rank_lt_length (lt_length_of_getElem? hi)
  obtain ⟨n, hn⟩ : ∃ n, t.length = n + 1 :=
    ⟨t.length - 1, by have := lt_length_of_getElem? hi; omega⟩
  obtain ⟨l', hl'⟩ := chain_isSome hwf n p mp hmp (by omega)
  have hchain : chain t t.length i = some (i :: l') := by
    rw [hn, chain_succ_step hi hp n, hl']; rfl
  have hl'' : chain t t.length p = some l' := chain_mono (by omega) hl'
  have hqmem : q ∈ l' := (inSubtree_eq_true_iff hl'').mp hsub
  exact (inSubtree_eq_true_iff hchain).mpr (List.mem_cons_of_mem i hqmem)

lemma costOf_le_of_inSubtree {dist : σ → σ → ℚ} {t : Tree σ} (hwf : WF dist t)
    {q i : Nat} (hsub : inSubtree t q i = true) : costOf t q ≤ costOf t i := by
  cases hl : chain t t.length i with
  | none => rw [inSubtree_false_of_none hl] at hsub; exact absurd hsub (by simp)
  | some l =>
    have hqmem : q ∈ l := (inSubtree_eq_true_iff hl).mp hsub
    exact ((chain_props hwf t.length i l hl).2.2.2.2 q hqmem).2.1

lemma wf_rewireOne {dist : σ → σ → ℚ} {t : Tree σ} (hwf : WF dist t)
    (hmet : IsMetric dist) (feasible : σ → σ → Bool) (m q : Nat) :
    WF dist (rewireOne dist feasible t m q) := by
  cases hm : t[m]? with
  | none => rw [rewireOne_oob_m dist feasible hm]; exact hwf
  | some mm =>
    cases hq : t[q]? with
    | none => rw [rewireOne_oob_q dist feasible hq]; exact hwf
    | some mq =>
      rw [rewireOne_eq dist feasible hm hq]
      by_cases hg : mm.cost + dist mm.state mq.state < mq.cost ∧
          feasible mm.state mq.state = true
      case neg => rw [if_neg hg]; exact hwf
      rw [if_pos hg]
      obtain ⟨hc, -⟩ := hg
      have hd0 : 0 ≤ dist mm.state mq.state := hmet.1 mm.state mq.state
      have hmm0 : 0 ≤ mm.cost := hwf.cost_nonneg m mm hm
      have hmmq : m ≠ q := by
        rintro rfl
        rw [hm] at hq
        obtain rfl := Option.some_injective _ hq
        linarith
      have hq0 : q ≠ 0 := by
        rintro rfl
        have := hwf.root_cost mq hq
        linarith
      have hcm : costOf t m = mm.cost := costOf_eq hm
      have hcq : costOf t q = mq.cost := costOf_eq hq
      have hmlt : costOf t m < costOf t q := by rw [hcm, hcq]; linarith
      have hnotsub : inSubtree t q m = false := not_inSubtree_of_cost_lt hwf hmlt
      have hstate_ne : mm.state ≠ mq.state := by
        intro hceq
        apply hmmq
        have h1 : (t.map Motion.state)[m]? = some mm.state := by
          rw [List.getElem?_map, hm]; rfl
        have h2 : (t.map Motion.state)[q]? = some mq.state := by
          rw [List.getElem?_map, hq]; rfl
        refine List.getElem?_inj ?_ hwf.states_nodup (h1.trans ?_)
        · rw [List.length_map]; exact lt_length_of_getElem? hm
        · rw [h2, hceq]
      have hdpos : 0 < dist mm.state mq.state := hmet.2 mm.state mq.state hstate_ne
      set f : Nat → Motion σ → Motion σ := fun i mo =>
        if i = q then
          ⟨mo.state, some m, mo.cost - (mq.cost - (mm.cost + dist mm.state mq.state))⟩
        else if inSubtree t q i then
          ⟨mo.state, mo.parent, mo.cost - (mq.cost - (mm.cost + dist mm.state mq.state))⟩
        else mo with hf
      have hfstate : ∀ i mo, (f i mo).state = mo.state := by
        intro i mo; rw [hf]; dsimp only; split_ifs <;> rfl
      have hfparent_ne : ∀ i mo, i ≠ q → (f i mo).parent = mo.parent := by
        intro i mo hne; rw [hf]; dsimp only; rw [if_neg hne]; split_ifs <;> rfl
      have hfparent_q : ∀ mo, (f q mo).parent = some m := by
        intro mo; rw [hf]; dsimp only; rw [if_pos rfl]
      have hfcost : ∀ i mo, (f i mo).cost =
          if i = q ∨ inSubtree t q i = true then
            mo.cost - (mq.cost - (mm.cost + dist mm.state mq.state))
          else mo.cost := by
        intro i mo; rw [hf]; dsimp only
        by_cases h1 : i = q
        · rw [if_pos h1, if_pos (Or.inl h1)]
        · rw [if_neg h1]
          by_cases h2 : inSubtree t q i
          · rw [if_pos h2, if_pos (Or.inr h2)]
          · rw [if_neg h2, if_neg (by push_neg; exact ⟨h1, by simpa using h2⟩)]
      have hget : ∀ i : Nat, (modifyAll f 0 t)[i]? = Option.map (f i) t[i]? := by
        intro i
        rw [getElem?_modifyAll]
        norm_num
      have hlen : (modifyAll f 0 t).length = t.length := modifyAll_length f 0 t
      refine ⟨?_, ?_, ?_, ?_, ?_, ?_⟩
      · intro hnil
        apply hwf.nonempty
        rw [← List.length_eq_zero] at hnil ⊢
        omega
      · rw [modifyAll_map_state f hfstate]; exact hwf.states_nodup
      · intro i mo h
        rw [hget i] at h
        cases hti : t[i]? with
        | none => rw [hti] at h; exact absurd h (by simp)
        | some mi =>
          rw [hti] at h
          obtain rfl : f i mi = mo := Option.some_injective _ h
          by_cases hiq : i = q
          · subst hiq
            rw [hfparent_q mi]
            constructor
            · intro hcon; exact absurd hcon (by simp)
            · intro hcon; exact absurd hcon hq0
          · rw [hfparent_ne i mi hiq]
            exact hwf.root_iff i mi hti
      · intro mo h
        rw [hget 0] at h
        cases ht0 : t[0]? with
        | none =>
          exfalso
          have h0 : 0 < t.length := List.length_pos.mpr hwf.nonempty
          rw [List.getElem?_eq_getElem h0] at ht0
          exact absurd ht0 (by simp)
        | some m0 =>
          rw [ht0] at h
          obtain rfl : f 0 m0 = mo := Option.some_injective _ h
          have hp0 : m0.parent = none := (hwf.root_iff 0 m0 ht0).mpr rfl
          have hch0 : chain t t.length 0 = some [0] := by
            obtain ⟨n, hn⟩ : ∃ n, t.length = n + 1 :=
              ⟨t.length - 1, by have := List.length_pos.mpr hwf.nonempty; omega⟩
            rw [hn]
            exact chain_succ_root ht0 hp0 n
          have hsub0 : inSubtree t q 0 = false := by
            cases hb : inSubtree t q 0 with
            | false => rfl
            | true =>
              exact absurd (by simpa using (inSubtree_eq_true_iff hch0).mp hb) hq0
          rw [hfcost 0 m0, if_neg (by push_neg; exact ⟨fun hcon => hq0 hcon.symm, by simp [hsub0]⟩)]
          exact hwf.root_cost m0 ht0
      · intro i mo h
        rw [hget i] at h
        cases hti : t[i]? with
        | none => rw [hti] at h; exact absurd h (by simp)
        | some mi =>
          rw [hti] at h
          obtain rfl : f i mi = mo := Option.some_injective _ h
          rw [hfcost i mi]
          split_ifs with hD
          · rcases hD with rfl | hsub
            · rw [hti] at hq
              obtain rfl := Option.some_injective _ hq
              linarith
            · have h1 : costOf t q ≤ costOf t i := costOf_le_of_inSubtree hwf hsub
              rw [hcq, costOf_eq hti] at h1
              linarith
          · exact hwf.cost_nonneg i mi hti
      · intro i mo pp h hpp
        rw [hget i] at h
        cases hti : t[i]? with
        | none => rw [hti] at h; exact absurd h (by simp)
        | some mi =>
          rw [hti] at h
          obtain rfl : f i mi = mo := Option.some_injective _ h
          by_cases hiq : i = q
          · subst hiq
            rw [hti] at hq
            obtain rfl := Option.some_injective _ hq
            rw [hfparent_q mi] at hpp
            obtain rfl : m = pp := Option.some_injective _ hpp
            refine ⟨f m mm, ?_, ?_, ?_⟩
            · rw [hget m, hm]; rfl
            · have hfm : f m mm = mm := by
                rw [hf]; dsimp only
                rw [if_neg hmmq, if_neg (by simp [hnotsub])]
              rw [hfm, hfstate i mi, hfcost i mi,
                if_pos (Or.inl rfl)]
              ring
            · have hfm : f m mm = mm := by
                rw [hf]; dsimp only
                rw [if_neg hmmq, if_neg (by simp [hnotsub])]
              rw [hfm, hfcost i mi, if_pos (Or.inl rfl)]
              linarith
          · rw [hfparent_ne i mi hiq] at hpp
            obtain ⟨mp', hmp', heq, hlt⟩ := hwf.edges i mi pp hti hpp
            by_cases hsubi : inSubtree t q i = true
            · have hsubp : inSubtree t q pp = true :=
                inSubtree_parent hti hpp hiq hsubi
              refine ⟨f pp mp', ?_, ?_, ?_⟩
              · rw [hget pp, hmp']; rfl
              · rw [hfstate pp mp', hfstate i mi, hfcost pp mp', hfcost i mi,
                  if_pos (Or.inr hsubp), if_pos (Or.inr hsubi)]
                linarith
              · rw [hfcost pp mp', hfcost i mi,
                  if_pos (Or.inr hsubp), if_pos (Or.inr hsubi)]
                linarith
            · have hsubp : inSubtree t q pp = false := by
                cases hb : inSubtree t q pp with
                | false => rfl
                | true => exact absurd (inSubtree_child hwf hti hpp hb) hsubi
              have hppq : pp ≠ q := by
                rintro rfl
                rw [inSubtree_self hwf hmp'] at hsubp
                exact absurd hsubp (by simp)
              refine ⟨f pp mp', ?_, ?_, ?_⟩
              · rw [hget pp, hmp']; rfl
              · rw [hfstate pp mp', hfstate i mi, hfcost pp mp', hfcost i mi,
                  if_neg (by push_neg; exact ⟨hppq, by simp [hsubp]⟩),
                  if_neg (by push_neg; exact ⟨hiq, by simpa using hsubi⟩)]
                exact heq
              · rw [hfcost pp mp', hfcost i mi,
                  if_neg (by push_neg; exact ⟨hppq, by simp [hsubp]⟩),
                  if_neg (by push_neg; exact ⟨hiq, by simpa using hsubi⟩)]
                exact hlt

lemma wf_reachable {dist : σ → σ → ℚ} {feasible : σ → σ → Bool} {t : Tree σ}
    (hmet : IsMetric dist) (hr : Reachable dist feasible t) : WF dist t := by
  induction hr with
  | init s => exact wf_initTree dist s
  | insert p s hr hs ih => exact wf_insertMotion ih hmet hs p
  | rewire m q hr ih => exact wf_rewireOne ih hmet feasible m q

/-- The 1-D configuration space used by the concrete witnesses: rationals
with the absolute-difference metric. -/
def qdist (a b : ℚ) : ℚ := |a - b|

lemma isMetric_qdist : IsMetric qdist :=
  ⟨fun a b => abs_nonneg (a - b), fun _ _ h => abs_pos.mpr (sub_ne_zero.mpr h)⟩

/-- A validity checker that accepts every segment, for the witnesses. -/
def qfeas (_ _ : ℚ) : Bool := true

/-- C1: in every reachable state of the Tree Store — in particular
immediately after every insertion and after every rewiring — each non-root
Motion's cost equals its parent's cost plus the edge cost between the
parent's state and its own state, the edge cost being `distanceFunction`,
i.e. the configuration space's distance metric. -/
theorem reachable_costConsistent {σ : Type} {dist : σ → σ → ℚ}
    {feasible : σ → σ → Bool} {t : Tree σ}
    (hmet : IsMetric dist) (hr : Reachable dist feasible t) :
    costConsistent dist t := by
  intro i mo p hi hp
  obtain ⟨mp, hmp, heq, _⟩ := (wf_reachable hmet hr).edges i mo p hi hp
  exact ⟨mp, hmp, by rw [← heq]; rfl⟩

/-- Witness for C1: the tree obtained by inserting state 1 under the root of
a 1-D rational space is cost-consistent. -/
theorem reachable_costConsistent_witness :
    costConsistent qdist (insertMotion qdist (initTree (0 : ℚ)) 0 1) := by
  have hr : Reachable qdist qfeas (insertMotion qdist (initTree (0 : ℚ)) 0 1) :=
    Reachable.insert 0 1 (Reachable.init 0) (by norm_num [initTree])
  exact reachable_costConsistent isMetric_qdist hr

/-- C2: in every reachable state of the Tree Store the motions form a rooted
tree: from any motion, following parent links reaches the root (index 0)
with no repeated motion, in at most as many steps as there are motions — so
every operation, rewiring included, preserves acyclicity. -/
theorem reachable_rooted_tree {σ : Type} {dist : σ → σ → ℚ}
    {feasible : σ → σ → Bool} {t : Tree σ}
    (hmet : IsMetric dist) (hr : Reachable dist feasible t) :
    ∀ i, i < t.length → ∃ l, chain t t.length i = some l ∧ l.head? = some i ∧
      l.getLast? = some 0 ∧ l.Nodup ∧ l.length ≤ t.length := by
  intro i hi
  have hwf := wf_reachable hmet hr
  obtain ⟨mi, hmi⟩ : ∃ mi, t[i]? = some mi := by
    rw [List.getElem?_eq_getElem hi]; exact ⟨_, rfl⟩
  obtain ⟨l, hl⟩ := chain_isSome hwf t.length i mi hmi (rank_lt_length hi)
  obtain ⟨h1, h2, h3, h4, _⟩ := chain_props hwf t.length i l hl
  exact ⟨l, hl, h1, h2, h3, h4⟩

/-- Witness for C2 on the initial single-motion tree. -/
theorem reachable_rooted_tree_witness :
    ∃ l, chain (initTree (0 : ℚ)) (initTree (0 : ℚ)).length 0 = some l ∧
      l.head? = some 0 ∧ l.getLast? = some 0 ∧ l.Nodup ∧
      l.length ≤ (initTree (0 : ℚ)).length := by
  have hr : Reachable qdist qfeas (initTree (0 : ℚ)) := Reachable.init 0
  exact reachable_rooted_tree isMetric_qdist hr 0 (by norm_num [initTree])

/-- One iteration's effect of the planning loop on the Tree Store: an
insertion or a rewiring, modelled from the spec. -/
def PlanStep (dist : σ → σ → ℚ) (feasible : σ → σ → Bool) (a b : Tree σ) : Prop :=
  (∃ p s, b = insertMotion dist a p s) ∨ ∃ m q, b = rewireOne dist feasible a m q

/-- The Tree Store evolving over any number of loop iterations. -/
def Evolves (dist : σ → σ → ℚ) (feasible : σ → σ → Bool) : Tree σ → Tree σ → Prop :=
  Relation.ReflTransGen (PlanStep dist feasible)

lemma planStep_length_le {dist : σ → σ → ℚ} {feasible : σ → σ → Bool}
    {a b : Tree σ} (h : PlanStep dist feasible a b) : a.length ≤ b.length := by
  rcases h with ⟨p, s, rfl⟩ | ⟨m, q, rfl⟩
  · cases hp : a[p]? with
    | none => rw [insertMotion_oob dist s hp]
    | some mp => rw [insertMotion_eq dist s hp]; simp
  · cases hm : a[m]? with
    | none => rw [rewireOne_oob_m dist feasible hm]
    | some mm =>
      cases hq : a[q]? with
      | none => rw [rewireOne_oob_q dist feasible hq]
      | some mq =>
        rw [rewireOne_eq dist feasible hm hq]
        split_ifs
        · rw [modifyAll_length]
        · exact le_rfl

lemma planStep_cost_le {dist : σ → σ → ℚ} {feasible : σ → σ → Bool}
    {a b : Tree σ} (h : PlanStep dist feasible a b) (i : Nat) (hi : i < a.length) :
    costOf b i ≤ costOf a i := by
  rcases h with ⟨p, s, rfl⟩ | ⟨m, q, rfl⟩
  · cases hp : a[p]? with
    | none => rw [insertMotion_oob dist s hp]
    | some mp =>
      rw [insertMotion_eq dist s hp]
      unfold costOf
      rw [getElem?_concat, if_pos hi]
  · cases hm : a[m]? with
    | none => rw [rewireOne_oob_m dist feasible hm]
    | some mm =>
      cases hq : a[q]? with
      | none => rw [rewireOne_oob_q dist feasible hq]
      | some mq =>
        rw [rewireOne_eq dist feasible hm hq]
        split_ifs with hg
        · obtain ⟨hc, -⟩ := hg
          obtain ⟨mi, hmi⟩ : ∃ mi, a[i]? = some mi := by
            rw [List.getElem?_eq_getElem hi]; exact ⟨_, rfl⟩
          have hb : (modifyAll (fun i mo =>
              if i = q then
                ⟨mo.state, some m, mo.cost - (mq.cost - (mm.cost + dist mm.state mq.state))⟩
              else if inSubtree a q i then
                ⟨mo.state, mo.parent, mo.cost - (mq.cost - (mm.cost + dist mm.state mq.state))⟩
              else mo) 0 a)[i]? = _ := getElem?_modifyAll _ 0 i a
          rw [costOf, hb, Nat.zero_add, hmi, costOf, hmi]
          dsimp only [Option.map_some', Option.getD_some]
          split_ifs
          · show mi.cost - (mq.cost - (mm.cost + dist mm.state mq.state)) ≤ mi.cost
            linarith
          · show mi.cost - (mq.cost - (mm.cost + dist mm.state mq.state)) ≤ mi.cost
            linarith
          · exact le_rfl
        · exact le_rfl

/-- C3: once inserted, a motion's stored cost never increases across
successive iterations of the planning loop: any sequence of insertions and
rewirings only ever lowers it. -/
theorem cost_never_increases {σ : Type} {dist : σ → σ → ℚ}
    {feasible : σ → σ → Bool} {t t' : Tree σ} (h : Evolves dist feasible t t') :
    ∀ i, i < t.length → i < t'.length ∧ costOf t' i ≤ costOf t i := by
  induction h with
  | refl => exact fun i hi => ⟨hi, le_rfl⟩
  | tail hstep hlast ih =>
    intro i hi
    obtain ⟨hib, hcb⟩ := ih i hi
    exact ⟨Nat.lt_of_lt_of_le hib (planStep_length_le hlast),
      le_trans (planStep_cost_le hlast i hib) hcb⟩

/-- Witness for C3: a (vacuous) rewiring step does not raise the root's
cost. -/
theorem cost_never_increases_witness :
    0 < (rewireOne qdist qfeas (initTree (0 : ℚ)) 0 0).length ∧
    costOf (rewireOne qdist qfeas (initTree (0 : ℚ)) 0 0) 0 ≤
      costOf (initTree (0 : ℚ)) 0 := by
  have hE : Evolves qdist qfeas (initTree (0 : ℚ))
      (rewireOne qdist qfeas (initTree (0 : ℚ)) 0 0) :=
    Relation.ReflTransGen.single (Or.inr ⟨0, 0, rfl⟩)
  exact cost_never_increases hE 0 (by norm_num [initTree])

/-! ### State ownership and `freeMemory` -/

/-- The configuration-space allocator's view: the next fresh state
identifier and the identifiers currently allocated (live). -/
structure Heap where
  next : Nat
  live : List Nat
deriving DecidableEq

/-- `si_->allocState()` as called by the `Motion(si)` constructor: return a
fresh state identifier and mark it live. -/
def allocState (h : Heap) : Heap × Nat :=
  (⟨h.next + 1, h.next :: h.live⟩, h.next)

/-- Modelled from the spec: releasing one state back to the configuration
space; releasing a state that is not live (a double free) is an error. -/
def freeState (h : Heap) (sid : Nat) : Option Heap :=
  if sid ∈ h.live then some ⟨h.next, h.live.erase sid⟩ else none

/-- Modelled from the spec: the body of `OptRRT::freeMemory` is only
declared in the header; per the spec it walks the stored motions and
releases each motion's owned state, without following parent
back-references. -/
def freeMemory (h : Heap) (t : Tree Nat) : Option Heap :=
  (t.map Motion.state).foldlM freeState h

lemma foldlM_freeState (ids : List Nat) : ∀ h : Heap, ids.Nodup →
    (∀ sid ∈ ids, sid ∈ h.live) →
    ids.foldlM freeState h = some ⟨h.next, h.live.diff ids⟩ := by
  induction ids with
  | nil => intro h _ _; simp
  | cons a tl ih =>
    intro h hnd hlive
    obtain ⟨ha, hnd'⟩ := List.nodup_cons.mp hnd
    have hmem : a ∈ h.live := hlive a (List.mem_cons_self a tl)
    have hfree : freeState h a = some ⟨h.next, h.live.erase a⟩ := by
      unfold freeState; rw [if_pos hmem]
    have hlive' : ∀ sid ∈ tl, sid ∈ h.live.erase a := by
      intro sid hsid
      have hne : sid ≠ a := fun hc => ha (hc ▸ hsid)
      exact (List.mem_erase_of_ne hne).mpr (hlive sid (List.mem_cons_of_mem a hsid))
    calc (a :: tl).foldlM freeState h
        = freeState h a >>= fun h' => tl.foldlM freeState h' := by
          rw [List.foldlM_cons]
      _ = tl.foldlM freeState ⟨h.next, h.live.erase a⟩ := by rw [hfree]; rfl
      _ = some ⟨h.next, (h.live.erase a).diff tl⟩ := ih _ hnd' hlive'
      _ = some ⟨h.next, h.live.diff (a :: tl)⟩ := by rw [List.diff_cons]

/-- C9: each motion exclusively owns its state; destroying the motions via
`freeMemory` succeeds — no state is released twice — and afterwards exactly
the motions' states have been released, each exactly once, leaking none and
touching no other live state. -/
theorem freeMemory_frees_each_state_once (h : Heap) (t : Tree Nat)
    (hnd : (t.map Motion.state).Nodup)
    (hlive : ∀ sid ∈ t.map Motion.state, sid ∈ h.live) :
    freeMemory h t = some ⟨h.next, h.live.diff (t.map Motion.state)⟩ :=
  foldlM_freeState (t.map Motion.state) h hnd hlive

/-- Witness for C9: freeing a two-motion tree with distinct live states
releases exactly those two states. -/
theorem freeMemory_frees_each_state_once_witness :
    freeMemory ⟨2, [0, 1]⟩ [⟨0, none, 0⟩, ⟨1, some 0, 1⟩] =
      some ⟨2, ([0, 1] : List Nat).diff [0, 1]⟩ :=
  freeMemory_frees_each_state_once ⟨2, [0, 1]⟩ [⟨0, none, 0⟩, ⟨1, some 0, 1⟩]
    (by decide) (by decide)

/-! ### The shrinking neighborhood radius -/

/-- Modelled from the spec: the shrinking neighborhood radius of step 5 of
Extend-and-Insert (inside the body of `OptRRT::solve`):
`r = min(ballRadiusMax, ballRadiusConst * (log n / n) ^ (1/d))`, where `n`
is the current number of motions and `d` the space's dimensionality; a
configured `ballRadiusMax` of 0 means unbounded, i.e. no clamp. -/
noncomputable def shrinkingRadius (bMax bConst : ℝ) (n d : ℕ) : ℝ :=
  if bMax = 0 then bConst * (Real.log n / n) ^ ((1 : ℝ) / d)
  else min bMax (bConst * (Real.log n / n) ^ ((1 : ℝ) / d))

/-- Modelled from the spec: the neighborhood used for parent choice and
rewiring falls back to the nearest motion alone when the tree has at most
one motion. -/
def neighborhood (withinRadius : List Nat) (nearest : Nat) (n : Nat) : List Nat :=
  if n ≤ 1 then [nearest] else withinRadius

/-- C4: with at least one motion in the tree, the neighborhood radius is the
`ballRadiusMax`-clamped shrinking term and is never negative or undefined
(at n = 1 the term is 0, not negative); a configured maximum of 0 disables
the clamp rather than forcing radius 0; and the neighborhood falls back to
`{nearest}` when n ≤ 1. -/
theorem shrinkingRadius_spec (bMax bConst : ℝ) (n d : ℕ)
    (hn : 1 ≤ n) (hmax : 0 ≤ bMax) (hconst : 0 ≤ bConst) :
    0 ≤ shrinkingRadius bMax bConst n d ∧
    (bMax = 0 → shrinkingRadius bMax bConst n d =
      bConst * (Real.log n / n) ^ ((1 : ℝ) / d)) ∧
    (bMax ≠ 0 → shrinkingRadius bMax bConst n d =
      min bMax (bConst * (Real.log n / n) ^ ((1 : ℝ) / d))) ∧
    ∀ w nr, n ≤ 1 → neighborhood w nr n = [nr] := by
  have hterm : 0 ≤ bConst * (Real.log n / n) ^ ((1 : ℝ) / d) := by
    apply mul_nonneg hconst
    apply Real.rpow_nonneg
    apply div_nonneg
    · exact Real.log_nonneg (by exact_mod_cast hn)
    · positivity
  refine ⟨?_, ?_, ?_, ?_⟩
  · unfold shrinkingRadius
    split_ifs
    · exact hterm
    · exact le_min hmax hterm
  · intro h0; unfold shrinkingRadius; rw [if_pos h0]
  · intro h0; unfold shrinkingRadius; rw [if_neg h0]
  · intro w nr hle; unfold neighborhood; rw [if_pos hle]

/-- Witness for C4 at n = 1 with an unbounded maximum. -/
theorem shrinkingRadius_spec_witness :
    0 ≤ shrinkingRadius 0 1 1 2 ∧
    shrinkingRadius 0 1 1 2 =
      1 * (Real.log ((1 : ℕ) : ℝ) / ((1 : ℕ) : ℝ)) ^ ((1 : ℝ) / ((2 : ℕ) : ℝ)) ∧
    neighborhood [5] 3 1 = [3] := by
  obtain ⟨h1, h2, h3, h4⟩ := shrinkingRadius_spec 0 1 1 2 le_rfl le_rfl zero_le_one
  exact ⟨h1, h2 rfl, h4 [5] 3 le_rfl⟩

/-! ### The solve loop and its termination -/

/-- Modelled from the spec: the stop condition polled at each iteration
boundary of `OptRRT::solve`: the externally supplied termination predicate,
or — when a maximum acceptable path length is configured — a recorded
solution whose cost is at or below that threshold (see the header's note
about `Goal::getMaximumPathLength`). -/
def stopCheck {α : Type} (ptc : Nat → Bool) (threshold : Option ℚ)
    (best : α → Option ℚ) (k : Nat) (s : α) : Bool :=
  ptc k || (match threshold, best s with
    | some bound, some c => decide (c ≤ bound)
    | _, _ => false)

/-- Modelled from the spec: the solve loop; each iteration runs `step` as a
whole, and the stop condition is polled exactly once per iteration at the
iteration boundary; `fuel` bounds the remaining iterations and `k` counts
the boundaries passed so far. -/
def solveLoop {α : Type} (step : α → α) (stop : Nat → α → Bool) :
    Nat → Nat → α → α × Nat
  | 0, k, s => (s, k)
  | fuel+1, k, s =>
    if stop k s then (s, k) else solveLoop step stop fuel (k+1) (step s)

lemma solveLoop_char {α : Type} (step : α → α) (stop : Nat → α → Bool) :
    ∀ (fuel k : Nat) (s : α), ∃ j, j ≤ fuel ∧
      solveLoop step stop fuel k s = (step^[j] s, k + j) ∧
      (∀ i, i < j → stop (k + i) (step^[i] s) = false) ∧
      (j < fuel → stop (k + j) (step^[j] s) = true) := by
  intro fuel
  induction fuel with
  | zero =>
    intro k s
    exact ⟨0, le_rfl, by simp [solveLoop], by omega, by omega⟩
  | succ n ih =>
    intro k s
    cases hstop : stop k s with
    | true =>
      refine ⟨0, Nat.zero_le _, ?_, by omega, fun _ => by simpa using hstop⟩
      rw [solveLoop, if_pos hstop]
      simp
    | false =>
      obtain ⟨j, hj, heq, hprev, hlast⟩ := ih (k+1) (step s)
      refine ⟨j+1, Nat.succ_le_succ hj, ?_, ?_, ?_⟩
      · rw [solveLoop, if_neg (by simp [hstop]), heq, Function.iterate_succ_apply,
          Prod.mk.injEq]
        exact ⟨rfl, by omega⟩
      · intro i hi
        cases i with
        | zero => simpa using hstop
        | succ i' =>
          rw [Function.iterate_succ_apply, show k + (i' + 1) = (k + 1) + i' from by omega]
          exact hprev i' (by omega)
      · intro hlt
        rw [Function.iterate_succ_apply, show k + (j + 1) = (k + 1) + j from by omega]
        exact hlast (by omega)

/-- C5: when a maximum acceptable path length is configured and the recorded
solution's cost is at or below it, the solve loop terminates at the current
iteration boundary whatever the externally supplied termination predicate
says — in particular before that predicate ever fires. -/
theorem solveLoop_stops_on_threshold {α : Type} (step : α → α) (ptc : Nat → Bool)
    (best : α → Option ℚ) (bound c : ℚ) (fuel k : Nat) (s : α)
    (hb : best s = some c) (hc : c ≤ bound) :
    stopCheck ptc (some bound) best k s = true ∧
    solveLoop step (stopCheck ptc (some bound) best) (fuel+1) k s = (s, k) := by
  have hstop : stopCheck ptc (some bound) best k s = true := by
    unfold stopCheck
    rw [hb]
    simp [hc]
  exact ⟨hstop, by rw [solveLoop, if_pos hstop]⟩

/-- Witness for C5: a recorded cost of 3 against a configured threshold of 5
stops the loop at once even though the termination predicate never fires. -/
theorem solveLoop_stops_on_threshold_witness :
    stopCheck (fun _ => false) (some 5) (fun _ : Nat => some (3 : ℚ)) 0 0 = true ∧
    solveLoop Nat.succ (stopCheck (fun _ => false) (some 5) (fun _ : Nat => some (3 : ℚ)))
      4 0 0 = (0, 0) :=
  solveLoop_stops_on_threshold Nat.succ (fun _ => false) (fun _ : Nat => some (3 : ℚ))
    5 3 3 0 0 rfl (by norm_num)

/-- C6: the solve loop stops within one iteration of the termination
predicate returning true — if it is true at a boundary, the loop returns
there with the state untouched; and the loop's result is always a whole
number of complete iterations (insert and rewire are never torn), the stop
condition being polled exactly once per iteration, at iteration boundaries
only. -/
theorem solveLoop_cooperative {α : Type} (step : α → α) (ptc : Nat → Bool)
    (threshold : Option ℚ) (best : α → Option ℚ) (fuel k : Nat) (s : α) :
    (ptc k = true → solveLoop step (stopCheck ptc threshold best) fuel k s = (s, k)) ∧
    ∃ j, j ≤ fuel ∧
      solveLoop step (stopCheck ptc threshold best) fuel k s = (step^[j] s, k + j) ∧
      (∀ i, i < j → stopCheck ptc threshold best (k + i) (step^[i] s) = false) ∧
      (j < fuel → stopCheck ptc threshold best (k + j) (step^[j] s) = true) := by
  constructor
  · intro hptc
    cases fuel with
    | zero => rfl
    | succ n =>
      rw [solveLoop, if_pos (by simp [stopCheck, hptc])]
  · exact solveLoop_char step (stopCheck ptc threshold best) fuel k s

/-- Witness for C6: with the termination predicate true at the starting
boundary, the loop performs no iteration. -/
theorem solveLoop_cooperative_witness :
    solveLoop Nat.succ (stopCheck (fun n => decide (2 ≤ n)) none (fun _ : Nat => none))
      5 2 0 = (0, 2) :=
  (solveLoop_cooperative Nat.succ (fun n => decide (2 ≤ n)) none (fun _ : Nat => none)
    5 2 0).1 (by decide)

end OptRRTVerify
